import Mathlib

/-!
Verification of the build-configuration extractor (`makefile_parser/src/lib.rs`)
and the text-patch engine (`src/patches.rs`) of the stm32-git-init-tool
repository.  Strings are modelled as `List Char`; Rust's Unicode whitespace is
restricted to its ASCII subset (sufficient for every statement below).  The
`regex` crate is external to the repository, so compiled regexes are modelled
abstractly by a `CompiledRegex` record of a match test and a replace-all
function, and `Regex::new` by a compile function that may fail.
-/

namespace StmTool

/-- ASCII subset of Rust's `char::is_whitespace`. -/
def isWs (c : Char) : Bool :=
  c = ' ' || c = '\t' || c = '\n' || c = '\r' || c = Char.ofNat 11 || c = Char.ofNat 12

/-- `needle` is a leading segment of `hay` (Rust `str::starts_with`). -/
def isPre : List Char → List Char → Bool
  | [], _ => true
  | _ :: _, [] => false
  | a :: as, b :: bs => a = b && isPre as bs

/-- Substring test: Rust `str::contains` with a literal pattern. -/
def containsSub (hay needle : List Char) : Bool :=
  match hay with
  | [] => isPre needle []
  | _ :: t => isPre needle hay || containsSub t needle

/-- `a` occurs contiguously inside `b`. -/
def SubSeg (a b : List Char) : Prop := ∃ s t, b = s ++ a ++ t

/-- Rust `str::trim_end` (ASCII whitespace model). -/
def trimEnd (s : List Char) : List Char := (s.reverse.dropWhile isWs).reverse

/-- Rust `str::trim_start` (ASCII whitespace model). -/
def trimStart (s : List Char) : List Char := s.dropWhile isWs

/-- Rust `str::trim` (ASCII whitespace model). -/
def trim (s : List Char) : List Char := trimStart (trimEnd s)

/-- Remove one trailing carriage return, as `str::lines` does to a
line terminated by `\r\n`. -/
def stripCR (l : List Char) : List Char :=
  if l.getLast? = some '\r' then l.dropLast else l

/-- Worker for `rustLines`: `acc` holds the current line reversed. -/
def rustLinesAux : List Char → List Char → List (List Char)
  | [], acc => if acc.isEmpty then [] else [acc.reverse]
  | c :: t, acc =>
    if c = '\n' then stripCR acc.reverse :: rustLinesAux t []
    else rustLinesAux t (c :: acc)

/-- Rust `str::lines`: split at `\n`, strip the `\r` of a `\r\n`
terminator, final terminator optional. -/
def rustLines (s : List Char) : List (List Char) := rustLinesAux s []

/-- Rust `Vec::<String>::join(sep)`. -/
def joinSep (sep : List Char) : List (List Char) → List Char
  | [] => []
  | [x] => x
  | x :: xs => x ++ sep ++ joinSep sep xs

/-- Worker for `splitWs`. -/
def splitWsAux : List Char → List Char → List (List Char)
  | [], acc => if acc.isEmpty then [] else [acc.reverse]
  | c :: t, acc =>
    if isWs c then
      if acc.isEmpty then splitWsAux t [] else acc.reverse :: splitWsAux t []
    else splitWsAux t (c :: acc)

/-- Rust `str::split_whitespace`: maximal non-whitespace runs, no empties. -/
def splitWs (s : List Char) : List (List Char) := splitWsAux s []

/-- Rust `str::replace` with an empty pattern: the replacement is put at
every character boundary. -/
def interleave (ins : List Char) : List Char → List Char
  | [] => ins
  | c :: t => ins ++ c :: interleave ins t

/-- Fuelled worker for `replaceAllStr`; fuel `s.length` always suffices
for a nonempty pattern. -/
def replaceGo (find ins : List Char) : Nat → List Char → List Char
  | 0, s => s
  | Nat.succ n, s =>
    match s with
    | [] => []
    | c :: t =>
      if isPre find s then ins ++ replaceGo find ins n (s.drop find.length)
      else c :: replaceGo find ins n t

/-- Rust `str::replace(find, ins)`: every non-overlapping occurrence,
left to right. -/
def replaceAllStr (find ins s : List Char) : List Char :=
  if find.isEmpty then interleave ins s else replaceGo find ins s.length s

/-- Fuelled worker for `trimStartMatches`. -/
def trimAllPre (pre : List Char) : Nat → List Char → List Char
  | 0, s => s
  | Nat.succ n, s =>
    if !pre.isEmpty && isPre pre s then trimAllPre pre n (s.drop pre.length)
    else s

/-- Rust `str::trim_start_matches(pre)`: strip the prefix repeatedly. -/
def trimStartMatches (pre s : List Char) : List Char := trimAllPre pre s.length s

/-- `List.flatMap` for line lists (kept local and first order). -/
def flatMapL (f : List Char → List (List Char)) : List (List Char) → List (List Char)
  | [] => []
  | x :: xs => f x ++ flatMapL f xs

/-! ## The patch engine (`src/patches.rs`) -/

/-- `enum Patch` from `src/config.rs`. -/
inductive Patch
  | append (file after insert marker : List Char)
  | replace (file find insert : List Char)
  | regexReplace (file pattern insert : List Char)

/-- `fn get_file` from `src/patches.rs`. -/
def Patch.getFile : Patch → List Char
  | .append f _ _ _ => f
  | .replace f _ _ => f
  | .regexReplace f _ _ => f

/-- Abstract compiled regex: the two operations `apply_patch` uses.
`replaceAll re content ins` is `re.replace_all(content, ins)` with
capture-group references of `ins` already interpreted by the engine. -/
structure CompiledRegex where
  isMatch : List Char → Bool
  replaceAll : List Char → List Char → List Char

/-- Abstract `Regex::new`: compilation of a pattern may fail. -/
abbrev RegexEngine := List Char → Option CompiledRegex

/-- The per-line closure of the `Append` arm of `apply_patch`:
`format!("{}\n{}", line, insert)` on a hit, the line otherwise. -/
def appGo (after ins l : List Char) : List Char :=
  if containsSub l after then l ++ '\n' :: ins else l

/-- The non-skipped `Append` output:
`content.lines().map(..).collect().join("\n") + "\n"`. -/
def appendOut (after ins c : List Char) : List Char :=
  joinSep ['\n'] ((rustLines c).map (appGo after ins)) ++ ['\n']

/-- Result of the `new_content` match of `apply_patch`:
an early `return Ok(())`, a computed content, or the
`Regex::new(..).unwrap()` panic. -/
inductive EditResult
  | skip
  | write (c : List Char)
  | panic

/-- The `match patch` block of `apply_patch`, over content that was read. -/
def editContent (eng : RegexEngine) (p : Patch) (content : List Char) : EditResult :=
  match p with
  | .append _ after ins marker =>
    if containsSub content marker then .skip
    else .write (appendOut after ins content)
  | .replace _ find ins =>
    if containsSub content ins then .skip
    else .write (replaceAllStr find ins content)
  | .regexReplace _ pat ins =>
    match eng pat with
    | none => .panic
    | some re =>
      if re.isMatch content && containsSub content ins then .skip
      else .write (re.replaceAll content ins)

/-- Error kinds of `fs::read_to_string` that matter to the claims. -/
inductive ReadError
  | notFound
  | permissionDenied
  | otherError
deriving DecidableEq

/-- Outcome of the `fs::read_to_string` call. -/
inductive ReadResult
  | ok (content : List Char)
  | err (e : ReadError)

/-- Observable outcome of one `apply_patch` run: `Ok(())` with no write,
`fs::write(file, content)` followed by `Ok(())`, or a panic. -/
inductive PatchOutcome
  | ok_skipped
  | ok_written (file content : List Char)
  | panicked
deriving DecidableEq

/-- `fn apply_patch` from `src/patches.rs`.  The `Err(_)` arm of the read
is the source's: any read error at all is turned into `Ok(())`. -/
def apply_patch (eng : RegexEngine) (p : Patch) (r : ReadResult) : PatchOutcome :=
  match r with
  | .err _ => .ok_skipped
  | .ok content =>
    match editContent eng p content with
    | .skip => .ok_skipped
    | .panic => .panicked
    | .write nc => .ok_written (Patch.getFile p) nc

/-- `apply_patch` seen as a transformation of the file content: a skipped
edit leaves the content, a written edit replaces it.  (The panic case
yields no content; every theorem touching it excludes it by hypothesis.) -/
def applyContentT (eng : RegexEngine) (p : Patch) (c : List Char) : List Char :=
  match editContent eng p c with
  | .write nc => nc
  | _ => c

/-- Engine whose every pattern fails to compile. -/
def noRegex : RegexEngine := fun _ => none

/-- A concrete compiled regex treating the pattern as a literal string. -/
def litCompile (pat : List Char) : CompiledRegex :=
  { isMatch := fun s => containsSub s pat
    replaceAll := fun s ins => replaceAllStr pat ins s }

/-- Engine compiling every pattern as a literal. -/
def litEng : RegexEngine := fun pat => some (litCompile pat)

/-- Engine on which the lone pattern `(` is invalid, every other pattern
a literal. -/
def demoEng : RegexEngine :=
  fun pat => if pat = "(".data then none else some (litCompile pat)

/-! ## The config extractor (`makefile_parser/src/lib.rs`) -/

/-- `struct MakefileConfig` from `makefile_parser/src/model.rs`. -/
structure MakefileConfig where
  target : Option (List Char)
  build_dir : Option (List Char)
  c_sources : List (List Char)
  asm_sources : List (List Char)
  includes : List (List Char)
  defines : List (List Char)
  cflags : List (List Char)
  asflags : List (List Char)
  ldflags : List (List Char)
  libs : List (List Char)
  ldscript : Option (List Char)

/-- Parser state: the record under construction plus the two hash sets
(`include_set`, `define_set`) modelled as membership lists. -/
structure ParseState where
  cfg : MakefileConfig
  iset : List (List Char)
  dset : List (List Char)

/-- The fresh `MakefileConfig` literal of `parse_makefile`. -/
def initState : ParseState :=
  ⟨⟨none, none, [], [], [], [], [], [], [], [], none⟩, [], []⟩

/-- Worker for `unfold_multiline`; `current` is the accumulator string. -/
def unfoldAux : List (List Char) → List Char → List (List Char)
  | [], current => if current.isEmpty then [] else [current]
  | l :: rest, current =>
    let trimmed := trimEnd l
    if trimmed.getLast? = some '\\' then
      unfoldAux rest (current ++ trimmed.dropLast ++ [' '])
    else
      (current ++ trimmed) :: unfoldAux rest []

/-- `fn unfold_multiline` from `makefile_parser/src/lib.rs`. -/
def unfold_multiline (lines : List (List Char)) : List (List Char) :=
  unfoldAux lines []

/-- Character class `[A-Z0-9_-]` of the assignment regex. -/
def isKeyChar (c : Char) : Bool :=
  ('A' ≤ c && c ≤ 'Z') || ('0' ≤ c && c ≤ '9') || c = '_' || c = '-'

/-- The capture of `^([A-Z0-9_-]+)\s*[:+]?=\s*(.*)$` on a line without
newlines: the key and the value, or no match.  The character classes
involved are pairwise disjoint, so the greedy match is this
deterministic scan. -/
def reAssign (line : List Char) : Option (List Char × List Char) :=
  let key := line.takeWhile isKeyChar
  let rest := (line.dropWhile isKeyChar).dropWhile isWs
  if key.isEmpty then none
  else
    match rest with
    | '=' :: v => some (key, v.dropWhile isWs)
    | ':' :: '=' :: v => some (key, v.dropWhile isWs)
    | '+' :: '=' :: v => some (key, v.dropWhile isWs)
    | _ => none

/-- One `C_INCLUDES`/`AS_INCLUDES` token: `-I`-prefixed tokens are
stripped and set-deduplicated into `includes`. -/
def incStep (st : ParseState) (tok : List Char) : ParseState :=
  if isPre ("-I".data) tok then
    let path := trimStartMatches ("-I".data) tok
    if path ∈ st.iset then st
    else { st with iset := path :: st.iset,
                   cfg := { st.cfg with includes := st.cfg.includes ++ [path] } }
  else st

/-- Symbol-name derivation of the `C_DEFS`/`AS_DEFS` arm. -/
def defName (tok : List Char) : List Char :=
  if isPre ("-D".data) tok then trimStartMatches ("-D".data) tok
  else if isPre ("-include".data) tok then trim (trimStartMatches ("-include".data) tok)
  else tok

/-- One `C_DEFS`/`AS_DEFS` token: nonempty derived names are
set-deduplicated into `defines`. -/
def defStep (st : ParseState) (tok : List Char) : ParseState :=
  let name := defName tok
  if name.isEmpty then st
  else if name ∈ st.dset then st
  else { st with dset := name :: st.dset,
                 cfg := { st.cfg with defines := st.cfg.defines ++ [name] } }

/-- The `match key` dispatch of `parse_makefile`. -/
def dispatchKey (st : ParseState) (key val : List Char) : ParseState :=
  if key = "TARGET".data then
    { st with cfg := { st.cfg with target := some val } }
  else if key = "BUILD_DIR".data then
    { st with cfg := { st.cfg with build_dir := some val } }
  else if key = "C_SOURCES".data then
    { st with cfg := { st.cfg with c_sources := st.cfg.c_sources ++ splitWs val } }
  else if key = "ASM_SOURCES".data then
    { st with cfg := { st.cfg with asm_sources := st.cfg.asm_sources ++ splitWs val } }
  else if key = "C_INCLUDES".data ∨ key = "AS_INCLUDES".data then
    (splitWs val).foldl incStep st
  else if key = "C_DEFS".data ∨ key = "AS_DEFS".data then
    (splitWs val).foldl defStep st
  else if key = "CFLAGS".data then
    { st with cfg := { st.cfg with cflags := st.cfg.cflags ++ splitWs val } }
  else if key = "ASFLAGS".data then
    { st with cfg := { st.cfg with asflags := st.cfg.asflags ++ splitWs val } }
  else if key = "LDFLAGS".data then
    { st with cfg := { st.cfg with ldflags := st.cfg.ldflags ++ splitWs val } }
  else if key = "LIBS".data then
    { st with cfg := { st.cfg with libs := st.cfg.libs ++ splitWs val } }
  else if key = "LDSCRIPT".data then
    { st with cfg := { st.cfg with ldscript := some val } }
  else st

/-- Body of the `for line in lines` loop of `parse_makefile`. -/
def procLine (st : ParseState) (l : List Char) : ParseState :=
  let line := trim l
  if line.isEmpty then st
  else if line.head? = some '#' then st
  else
    match reAssign line with
    | none => st
    | some kv => dispatchKey st kv.1 kv.2

/-- `fn parse_makefile` from `makefile_parser/src/lib.rs`. -/
def parse_makefile (content : List Char) : MakefileConfig :=
  ((unfold_multiline (rustLines content)).foldl procLine initState).cfg

/-! ## Substring lemmas -/

theorem isPre_append (n t : List Char) : isPre n (n ++ t) = true := by
  induction n with
  | nil => simp [isPre]
  | cons a as ih => simp [isPre, ih]

theorem isPre_exists {n h : List Char} (hp : isPre n h = true) : ∃ t, h = n ++ t := by
  induction n generalizing h with
  | nil => exact ⟨h, rfl⟩
  | cons a as ih =>
    cases h with
    | nil => simp [isPre] at hp
    | cons b bs =>
      simp only [isPre, Bool.and_eq_true, decide_eq_true_eq] at hp
      obtain ⟨rfl, hp2⟩ := hp
      obtain ⟨t, rfl⟩ := ih hp2
      exact ⟨t, rfl⟩

theorem containsSub_of_isPre {h n : List Char} (hp : isPre n h = true) :
    containsSub h n = true := by
  cases h with
  | nil => simpa [containsSub] using hp
  | cons c t => simp [containsSub, hp]

theorem containsSub_cons (c : Char) {t n : List Char} (h : containsSub t n = true) :
    containsSub (c :: t) n = true := by
  simp [containsSub, h]

theorem containsSub_iff {h n : List Char} : containsSub h n = true ↔ SubSeg n h := by
  induction h with
  | nil =>
    simp only [containsSub]
    constructor
    · intro hp
      obtain ⟨t, ht⟩ := isPre_exists hp
      cases n with
      | nil => exact ⟨[], [], by simp⟩
      | cons a as => simp at ht
    · rintro ⟨s, t, heq⟩
      have hs : s = [] := by cases s with | nil => rfl | cons x xs => simp at heq
      subst hs
      have hn : n = [] := by cases n with | nil => rfl | cons x xs => simp at heq
      subst hn
      simp [isPre]
  | cons c t ih =>
    simp only [containsSub, Bool.or_eq_true]
    constructor
    · rintro (hp | hc)
      · obtain ⟨r, hr⟩ := isPre_exists hp
        exact ⟨[], r, by simp [hr]⟩
      · obtain ⟨s, r, hr⟩ := ih.mp hc
        exact ⟨c :: s, r, by simp [hr]⟩
    · rintro ⟨s, r, heq⟩
      cases s with
      | nil =>
        left
        simp only [List.nil_append] at heq
        rw [heq]
        exact isPre_append n r
      | cons s0 ss =>
        right
        simp only [List.cons_append] at heq
        exact ih.mpr ⟨ss, r, (List.cons.injEq .. ▸ heq).2⟩

theorem subSeg_trans {a b c : List Char} (h1 : SubSeg a b) (h2 : SubSeg b c) : SubSeg a c := by
  obtain ⟨s1, t1, rfl⟩ := h1
  obtain ⟨s2, t2, rfl⟩ := h2
  exact ⟨s2 ++ s1, t1 ++ t2, by simp [List.append_assoc]⟩

theorem containsSub_trans {a b c : List Char}
    (h1 : containsSub b a = true) (h2 : containsSub c b = true) : containsSub c a = true :=
  containsSub_iff.mpr (subSeg_trans (containsSub_iff.mp h1) (containsSub_iff.mp h2))

theorem isPre_refl (n : List Char) : isPre n n = true := by
  have := isPre_append n []
  simpa using this

/-! ## Line-splitting and join lemmas -/

theorem memOfGetLast {α} {l : List α} {a : α} (h : l.getLast? = some a) : a ∈ l := by
  have hx : a ∈ l.getLast? := Option.mem_def.mpr h
  obtain ⟨hne, heq⟩ := List.mem_getLast?_eq_getLast hx
  rw [heq]
  exact List.getLast_mem hne

theorem getLast?_of_ne_nil {α} {l : List α} (h : l ≠ []) : ∃ a, l.getLast? = some a :=
  ⟨l.getLast h, List.getLast?_eq_getLast_of_ne_nil h⟩

theorem mem_stripCR {l : List Char} {a : Char} (h : a ∈ stripCR l) : a ∈ l := by
  unfold stripCR at h
  split at h
  · exact List.mem_of_mem_dropLast h
  · exact h

theorem stripCR_of_not_cr {l : List Char} (h : '\r' ∉ l) : stripCR l = l := by
  unfold stripCR
  split
  case isTrue h2 => exact absurd (memOfGetLast h2) h
  case isFalse => rfl

theorem rustLinesAux_append {l : List Char} (hnl : '\n' ∉ l) (rest acc : List Char) :
    rustLinesAux (l ++ '\n' :: rest) acc
      = stripCR (acc.reverse ++ l) :: rustLinesAux rest [] := by
  induction l generalizing acc with
  | nil => simp [rustLinesAux]
  | cons c t ih =>
    have hc : ¬(c = '\n') := fun h => hnl (by simp [h])
    have hnt : '\n' ∉ t := fun h => hnl (by simp [h])
    simp only [List.cons_append, rustLinesAux, if_neg hc, List.append_eq]
    rw [ih hnt (c :: acc)]
    simp [List.append_assoc]

theorem rustLinesAux_ne_nil {s acc : List Char} (h : s ≠ [] ∨ acc ≠ []) :
    rustLinesAux s acc ≠ [] := by
  induction s generalizing acc with
  | nil =>
    rcases h with h | h
    · exact absurd rfl h
    · simp [rustLinesAux, h]
  | cons c t ih =>
    by_cases hc : c = '\n'
    · simp [rustLinesAux, hc]
    · simp only [rustLinesAux, if_neg hc]
      exact ih (Or.inr (by simp))

theorem rustLines_ne_nil {s : List Char} (h : s ≠ []) : rustLines s ≠ [] :=
  rustLinesAux_ne_nil (Or.inl h)

theorem rustLinesAux_no_nl {s acc l : List Char} (hacc : '\n' ∉ acc)
    (hl : l ∈ rustLinesAux s acc) : '\n' ∉ l := by
  induction s generalizing acc with
  | nil =>
    simp only [rustLinesAux] at hl
    split at hl
    · simp at hl
    · simp only [List.mem_singleton] at hl
      subst hl
      simpa using hacc
  | cons c t ih =>
    by_cases hc : c = '\n'
    · subst hc
      simp only [rustLinesAux, if_true, eq_self_iff_true, List.mem_cons] at hl
      rcases hl with h1 | h1
      · subst h1
        intro hmem
        exact hacc (by simpa using mem_stripCR hmem)
      · exact ih (by simp) h1
    · simp only [rustLinesAux, if_neg hc] at hl
      exact ih (by simp [hacc, Ne.symm hc]) hl

theorem rustLinesAux_all {s acc l : List Char} (p : Char → Prop)
    (hs : ∀ x ∈ s, p x) (hacc : ∀ x ∈ acc, p x)
    (hl : l ∈ rustLinesAux s acc) : ∀ x ∈ l, p x := by
  induction s generalizing acc with
  | nil =>
    simp only [rustLinesAux] at hl
    split at hl
    · simp at hl
    · simp only [List.mem_singleton] at hl
      subst hl
      intro x hx
      exact hacc x (by simpa using hx)
  | cons c t ih =>
    have hst : ∀ x ∈ t, p x := fun x hx => hs x (by simp [hx])
    by_cases hc : c = '\n'
    · subst hc
      simp only [rustLinesAux, if_true, eq_self_iff_true, List.mem_cons] at hl
      rcases hl with h1 | h1
      · subst h1
        intro x hx
        exact hacc x (by simpa using mem_stripCR hx)
      · exact ih hst (by simp) h1
    · simp only [rustLinesAux, if_neg hc] at hl
      refine ih hst ?_ hl
      intro x hx
      rcases List.mem_cons.mp hx with rfl | hx
      · exact hs x (by simp)
      · exact hacc x hx

theorem rustLines_no_nl {s l : List Char} (hl : l ∈ rustLines s) : '\n' ∉ l :=
  rustLinesAux_no_nl (by simp) hl

theorem rustLines_no_cr {s l : List Char} (hs : '\r' ∉ s) (hl : l ∈ rustLines s) :
    '\r' ∉ l := by
  intro hmem
  exact rustLinesAux_all (fun x => x ≠ '\r') (fun x hx h => hs (h ▸ hx)) (by simp) hl '\r' hmem rfl

theorem joinSep_cons (sep x : List Char) {M : List (List Char)} (h : M ≠ []) :
    joinSep sep (x :: M) = x ++ sep ++ joinSep sep M := by
  cases M with
  | nil => exact absurd rfl h
  | cons y M' => rfl

theorem subSeg_joinSep (sep : List Char) {M : List (List Char)} {x : List Char}
    (hx : x ∈ M) : SubSeg x (joinSep sep M) := by
  induction M with
  | nil => simp at hx
  | cons a M' ih =>
    rcases List.mem_cons.mp hx with rfl | hx'
    · cases M' with
      | nil => exact ⟨[], [], by simp [joinSep]⟩
      | cons y M'' => exact ⟨[], sep ++ joinSep sep (y :: M''), by simp [joinSep, List.append_assoc]⟩
    · have hM' : M' ≠ [] := fun h => by simp [h] at hx'
      obtain ⟨s, t, heq⟩ := ih hx'
      exact ⟨a ++ sep ++ s, t, by rw [joinSep_cons sep a hM', heq]; simp [List.append_assoc]⟩

theorem joinSep_append (sep : List Char) {A B : List (List Char)}
    (hA : A ≠ []) (hB : B ≠ []) :
    joinSep sep (A ++ B) = joinSep sep A ++ sep ++ joinSep sep B := by
  induction A with
  | nil => exact absurd rfl hA
  | cons a A' ih =>
    cases A' with
    | nil => simp [joinSep_cons sep a hB, joinSep]
    | cons a2 A'' =>
      have h1 : a2 :: A'' ≠ [] := by simp
      have h2 : a2 :: A'' ++ B ≠ [] := by simp
      rw [List.cons_append, joinSep_cons sep a h2, ih h1, joinSep_cons sep a h1]
      simp [List.append_assoc]

theorem joinSep_ends (sep : List Char) {M : List (List Char)} {m : List Char}
    (h : M.getLast? = some m) : ∃ r, joinSep sep M = r ++ m := by
  induction M with
  | nil => simp at h
  | cons a M' ih =>
    cases M' with
    | nil =>
      simp only [List.getLast?_singleton, Option.some.injEq] at h
      exact ⟨[], by simp [joinSep, h]⟩
    | cons a2 M'' =>
      rw [List.getLast?_cons_cons] at h
      obtain ⟨r', hr'⟩ := ih h
      exact ⟨a ++ sep ++ r', by rw [joinSep_cons sep a (by simp), hr']; simp [List.append_assoc]⟩

theorem rustLines_join {M : List (List Char)} (hM : M ≠ [])
    (hnl : ∀ l ∈ M, '\n' ∉ l) (hcr : ∀ l ∈ M, '\r' ∉ l) :
    rustLines (joinSep ['\n'] M ++ ['\n']) = M := by
  induction M with
  | nil => exact absurd rfl hM
  | cons x M' ih =>
    cases M' with
    | nil =>
      show rustLinesAux (x ++ '\n' :: []) [] = [x]
      rw [rustLinesAux_append (hnl x (by simp)) [] []]
      simp [rustLinesAux, stripCR_of_not_cr (hcr x (by simp))]
    | cons y M'' =>
      have hM' : y :: M'' ≠ [] := by simp
      have heq : joinSep ['\n'] (x :: y :: M'') ++ ['\n']
          = x ++ '\n' :: (joinSep ['\n'] (y :: M'') ++ ['\n']) := by
        rw [joinSep_cons _ x hM']
        simp [List.append_assoc]
      rw [rustLines, heq, rustLinesAux_append (hnl x (by simp)) _ []]
      simp only [List.reverse_nil, List.nil_append]
      rw [stripCR_of_not_cr (hcr x (by simp))]
      have ih2 := ih hM' (fun l hl => hnl l (by simp [List.mem_cons] at hl ⊢; tauto))
        (fun l hl => hcr l (by simp [List.mem_cons] at hl ⊢; tauto))
      rw [show rustLinesAux (joinSep ['\n'] (y :: M'') ++ ['\n']) []
            = rustLines (joinSep ['\n'] (y :: M'') ++ ['\n']) from rfl, ih2]

/-! ## Patch-engine unfolding lemmas -/

/-- The regex-replace output for a successfully compiled pattern. -/
def rrOut (re : CompiledRegex) (c ins : List Char) : List Char :=
  if re.isMatch c && containsSub c ins then c else re.replaceAll c ins

theorem applyContentT_append (eng : RegexEngine) (f after ins marker c : List Char) :
    applyContentT eng (Patch.append f after ins marker) c
      = if containsSub c marker then c else appendOut after ins c := by
  by_cases h : containsSub c marker = true <;>
    simp [applyContentT, editContent, h]

theorem applyContentT_replace (eng : RegexEngine) (f find ins c : List Char) :
    applyContentT eng (Patch.replace f find ins) c
      = if containsSub c ins then c else replaceAllStr find ins c := by
  by_cases h : containsSub c ins = true <;>
    simp [applyContentT, editContent, h]

theorem applyContentT_rr (eng : RegexEngine) (f pat ins c : List Char)
    {re : CompiledRegex} (hre : eng pat = some re) :
    applyContentT eng (Patch.regexReplace f pat ins) c = rrOut re c ins := by
  by_cases h : (re.isMatch c && containsSub c ins) = true <;>
    simp [applyContentT, editContent, hre, rrOut, h]

/-! ## Replace idempotence -/

theorem replaceGo_id {find ins s : List Char} (h : containsSub s find = false) :
    ∀ n, replaceGo find ins n s = s := by
  intro n
  induction n generalizing s with
  | zero => rfl
  | succ n ih =>
    cases s with
    | nil => rfl
    | cons c t =>
      simp only [containsSub, Bool.or_eq_false_iff] at h
      obtain ⟨h1, h2⟩ := h
      simp only [replaceGo, h1, Bool.false_eq_true, if_false]
      rw [ih h2]

theorem isPre_nil_false {find : List Char} (hf : find ≠ []) : isPre find [] = false := by
  cases find with
  | nil => exact absurd rfl hf
  | cons a as => rfl

theorem replaceGo_contains {find ins : List Char} (hf : find ≠ []) :
    ∀ n s, s.length ≤ n → containsSub s find = true →
      containsSub (replaceGo find ins n s) ins = true := by
  intro n
  induction n with
  | zero =>
    intro s hlen hc
    have hs : s = [] := List.eq_nil_of_length_eq_zero (Nat.le_zero.mp hlen)
    subst hs
    rw [show containsSub [] find = isPre find [] from rfl, isPre_nil_false hf] at hc
    exact absurd hc (by simp)
  | succ n ih =>
    intro s hlen hc
    cases s with
    | nil =>
      rw [show containsSub [] find = isPre find [] from rfl, isPre_nil_false hf] at hc
      exact absurd hc (by simp)
    | cons c t =>
      by_cases hp : isPre find (c :: t) = true
      · simp only [replaceGo, hp, if_true]
        exact containsSub_of_isPre (isPre_append ins _)
      · have hp' : isPre find (c :: t) = false := by
          cases hpe : isPre find (c :: t) with
          | false => rfl
          | true => exact absurd hpe hp
        simp only [replaceGo, hp', Bool.false_eq_true, if_false]
        have hct : containsSub t find = true := by
          rw [show containsSub (c :: t) find = (isPre find (c :: t) || containsSub t find)
                from rfl, hp'] at hc
          simpa using hc
        exact containsSub_cons c (ih t (by simpa using Nat.lt_succ_iff.mp (Nat.lt_of_lt_of_le (Nat.lt_succ_self _) (by simpa using hlen))) hct)

theorem interleave_contains (ins s : List Char) :
    containsSub (interleave ins s) ins = true := by
  cases s with
  | nil => exact containsSub_of_isPre (isPre_refl ins)
  | cons c t => exact containsSub_of_isPre (isPre_append ins _)

theorem replaceIdem (eng : RegexEngine) (f find ins c : List Char) :
    applyContentT eng (Patch.replace f find ins)
        (applyContentT eng (Patch.replace f find ins) c)
      = applyContentT eng (Patch.replace f find ins) c := by
  rw [applyContentT_replace eng f find ins c]
  by_cases h1 : containsSub c ins = true
  · rw [if_pos h1, applyContentT_replace, if_pos h1]
  · rw [if_neg h1, applyContentT_replace]
    by_cases hr : containsSub (replaceAllStr find ins c) ins = true
    · rw [if_pos hr]
    · rw [if_neg hr]
      by_cases hf : find.isEmpty = true
      · exfalso
        apply hr
        unfold replaceAllStr
        rw [if_pos hf]
        exact interleave_contains ins c
      · have hfne : find ≠ [] := fun h => hf (by simp [h])
        by_cases hcf : containsSub c find = true
        · exfalso
          apply hr
          unfold replaceAllStr
          rw [if_neg hf]
          exact replaceGo_contains hfne c.length c (le_refl _) hcf
        · have hcf' : containsSub c find = false := by
            cases hce : containsSub c find with
            | false => rfl
            | true => exact absurd hce hcf
          have hid : replaceAllStr find ins c = c := by
            unfold replaceAllStr
            rw [if_neg hf]
            exact replaceGo_id hcf' _
          rw [hid, hid]

/-! ## Append idempotence -/

theorem map_appGo_id {after ins : List Char} {L : List (List Char)}
    (h : ∀ l ∈ L, containsSub l after = false) :
    L.map (appGo after ins) = L := by
  induction L with
  | nil => rfl
  | cons l L ih =>
    have h1 := h l (by simp)
    have h2 : ∀ x ∈ L, containsSub x after = false := fun x hx => h x (by simp [hx])
    simp only [List.map_cons, appGo, h1, Bool.false_eq_true, if_false, ih h2]

theorem appendIdem (eng : RegexEngine) (f after ins marker c : List Char)
    (him : containsSub ins marker = true) (hcr : '\r' ∉ c) (hc : c ≠ []) :
    applyContentT eng (Patch.append f after ins marker)
        (applyContentT eng (Patch.append f after ins marker) c)
      = applyContentT eng (Patch.append f after ins marker) c := by
  rw [applyContentT_append eng f after ins marker c]
  by_cases hm : containsSub c marker = true
  · rw [if_pos hm, applyContentT_append, if_pos hm]
  · rw [if_neg hm, applyContentT_append]
    by_cases hm2 : containsSub (appendOut after ins c) marker = true
    · rw [if_pos hm2]
    · rw [if_neg hm2]
      by_cases hex : ∃ l ∈ rustLines c, containsSub l after = true
      · exfalso
        apply hm2
        obtain ⟨l, hlL, hla⟩ := hex
        apply containsSub_iff.mpr
        have h1 : SubSeg marker ins := containsSub_iff.mp him
        have h2 : SubSeg ins (appGo after ins l) := by
          rw [appGo, if_pos hla]
          exact ⟨l ++ ['\n'], [], by simp⟩
        have h3 : SubSeg (appGo after ins l)
            (joinSep ['\n'] ((rustLines c).map (appGo after ins))) :=
          subSeg_joinSep _ (List.mem_map_of_mem _ hlL)
        have h4 : SubSeg (joinSep ['\n'] ((rustLines c).map (appGo after ins)))
            (appendOut after ins c) := ⟨[], ['\n'], by simp [appendOut]⟩
        exact subSeg_trans (subSeg_trans (subSeg_trans h1 h2) h3) h4
      · push_neg at hex
        have hnomatch : ∀ l ∈ rustLines c, containsSub l after = false := by
          intro l hl
          cases hce : containsSub l after with
          | false => rfl
          | true => exact absurd hce (hex l hl)
        have hmapid := @map_appGo_id after ins (rustLines c) hnomatch
        have hoL : appendOut after ins c = joinSep ['\n'] (rustLines c) ++ ['\n'] := by
          rw [appendOut, hmapid]
        have hrl : rustLines (appendOut after ins c) = rustLines c := by
          rw [hoL]
          exact rustLines_join (rustLines_ne_nil hc)
            (fun l hl => rustLines_no_nl hl) (fun l hl => rustLines_no_cr hcr hl)
        rw [appendOut, hrl, hmapid, ← hoL]

/-! ## Regex-replace idempotence under the documented condition -/

theorem rrIdem (eng : RegexEngine) (f pat ins c : List Char) {re : CompiledRegex}
    (hre : eng pat = some re)
    (hyp : (re.isMatch (rrOut re c ins) && containsSub (rrOut re c ins) ins) = true
         ∨ re.replaceAll (rrOut re c ins) ins = rrOut re c ins) :
    applyContentT eng (Patch.regexReplace f pat ins)
        (applyContentT eng (Patch.regexReplace f pat ins) c)
      = applyContentT eng (Patch.regexReplace f pat ins) c := by
  rw [applyContentT_rr eng f pat ins c hre, applyContentT_rr eng f pat ins _ hre]
  by_cases hcond : (re.isMatch (rrOut re c ins) && containsSub (rrOut re c ins) ins) = true
  · rw [show rrOut re (rrOut re c ins) ins
        = if re.isMatch (rrOut re c ins) && containsSub (rrOut re c ins) ins then rrOut re c ins
          else re.replaceAll (rrOut re c ins) ins from rfl, if_pos hcond]
  · rw [show rrOut re (rrOut re c ins) ins
        = if re.isMatch (rrOut re c ins) && containsSub (rrOut re c ins) ins then rrOut re c ins
          else re.replaceAll (rrOut re c ins) ins from rfl, if_neg hcond]
    rcases hyp with hyp | hyp
    · exact absurd hyp hcond
    · exact hyp

/-! ## Flattening the Append output into logical lines -/

theorem flatMapL_cons_ne_nil (after ins : List Char) (l : List Char) (L : List (List Char)) :
    flatMapL (fun x => if containsSub x after then [x, ins] else [x]) (l :: L) ≠ [] := by
  show (if containsSub l after then [l, ins] else [l])
      ++ flatMapL (fun x => if containsSub x after then [x, ins] else [x]) L ≠ []
  by_cases h : containsSub l after = true <;> simp [h]

theorem mem_flatMapL {f : List Char → List (List Char)} {L : List (List Char)}
    {x : List Char} : x ∈ flatMapL f L ↔ ∃ l ∈ L, x ∈ f l := by
  induction L with
  | nil => simp [flatMapL]
  | cons a L ih =>
    simp only [flatMapL, List.mem_append, ih, List.mem_cons]
    constructor
    · rintro (hx | ⟨l, hl, hx⟩)
      · exact ⟨a, Or.inl rfl, hx⟩
      · exact ⟨l, Or.inr hl, hx⟩
    · rintro ⟨l, rfl | hl, hx⟩
      · exact Or.inl hx
      · exact Or.inr ⟨l, hl, hx⟩

theorem joinSep_map_appGo (after ins : List Char) (L : List (List Char)) :
    joinSep ['\n'] (L.map (appGo after ins))
      = joinSep ['\n']
          (flatMapL (fun l => if containsSub l after then [l, ins] else [l]) L) := by
  induction L with
  | nil => rfl
  | cons l L ih =>
    cases L with
    | nil =>
      show joinSep ['\n'] [appGo after ins l]
          = joinSep ['\n'] ((if containsSub l after then [l, ins] else [l]) ++ [])
      by_cases h : containsSub l after = true <;>
        simp [h, appGo, joinSep]
    | cons l2 L2 =>
      have hmapne : (l2 :: L2).map (appGo after ins) ≠ [] := by simp
      have hflatne := flatMapL_cons_ne_nil after ins l2 L2
      have hfl : (if containsSub l after then [l, ins] else [l]) ≠ [] := by
        by_cases h : containsSub l after = true <;> simp [h]
      rw [List.map_cons, joinSep_cons _ _ hmapne]
      rw [show flatMapL (fun x => if containsSub x after then [x, ins] else [x]) (l :: l2 :: L2)
            = (if containsSub l after then [l, ins] else [l])
              ++ flatMapL (fun x => if containsSub x after then [x, ins] else [x]) (l2 :: L2)
          from rfl]
      rw [joinSep_append _ hfl hflatne, ih]
      congr 1
      by_cases h : containsSub l after = true <;> simp [h, appGo, joinSep]

/-! ## Extractor invariant: `includes` and `defines` stay duplicate-free -/

/-- Invariant carried through the `parse_makefile` fold: the two
deduplicated sequences have no repeats, and every entry is registered in
the corresponding membership set. -/
def ParseInv (st : ParseState) : Prop :=
  st.cfg.includes.Nodup ∧ st.cfg.defines.Nodup
    ∧ (∀ x ∈ st.cfg.includes, x ∈ st.iset) ∧ (∀ x ∈ st.cfg.defines, x ∈ st.dset)

theorem nodup_app_single {α} (l : List α) (a : α) (h : l.Nodup) (ha : a ∉ l) :
    (l ++ [a]).Nodup := by
  induction l with
  | nil => simp
  | cons x l ih =>
    rw [List.nodup_cons] at h
    simp only [List.cons_append, List.nodup_cons, List.mem_append, List.mem_singleton]
    refine ⟨?_, ih h.2 (fun hx => ha (by simp [hx]))⟩
    rintro (hx | rfl)
    · exact h.1 hx
    · exact ha (by simp)

theorem foldl_inv {α β} (P : α → Prop) (step : α → β → α)
    (hstep : ∀ a b, P a → P (step a b)) :
    ∀ (l : List β) (a), P a → P (l.foldl step a) := by
  intro l
  induction l with
  | nil => intro a ha; exact ha
  | cons b l ih => intro a ha; exact ih _ (hstep _ _ ha)

theorem incStep_inv {st : ParseState} {tok : List Char} (h : ParseInv st) :
    ParseInv (incStep st tok) := by
  obtain ⟨hni, hnd, hmi, hmd⟩ := h
  unfold incStep
  dsimp only
  split_ifs with h1 h2
  · exact ⟨hni, hnd, hmi, hmd⟩
  · refine ⟨?_, hnd, ?_, hmd⟩
    · exact nodup_app_single _ _ hni (fun hx => h2 (hmi _ hx))
    · intro x hx
      rcases List.mem_append.mp hx with hx | hx
      · exact List.mem_cons_of_mem _ (hmi x hx)
      · rw [List.mem_singleton.mp hx]
        exact List.mem_cons_self _ _
  · exact ⟨hni, hnd, hmi, hmd⟩

theorem defStep_inv {st : ParseState} {tok : List Char} (h : ParseInv st) :
    ParseInv (defStep st tok) := by
  obtain ⟨hni, hnd, hmi, hmd⟩ := h
  unfold defStep
  dsimp only
  split_ifs with h1 h2
  · exact ⟨hni, hnd, hmi, hmd⟩
  · exact ⟨hni, hnd, hmi, hmd⟩
  · refine ⟨hni, ?_, hmi, ?_⟩
    · exact nodup_app_single _ _ hnd (fun hx => h2 (hmd _ hx))
    · intro x hx
      rcases List.mem_append.mp hx with hx | hx
      · exact List.mem_cons_of_mem _ (hmd x hx)
      · rw [List.mem_singleton.mp hx]
        exact List.mem_cons_self _ _

theorem ite_inv {α} (P : α → Prop) (c : Prop) [Decidable c] {a b : α}
    (ha : P a) (hb : P b) : P (if c then a else b) := by
  split
  · exact ha
  · exact hb

theorem dispatchKey_inv {st : ParseState} {key val : List Char} (h : ParseInv st) :
    ParseInv (dispatchKey st key val) := by
  obtain ⟨hni, hnd, hmi, hmd⟩ := h
  unfold dispatchKey
  repeat' apply ite_inv ParseInv
  all_goals
    first
      | exact foldl_inv ParseInv incStep (fun a b ha => incStep_inv ha) _ _ ⟨hni, hnd, hmi, hmd⟩
      | exact foldl_inv ParseInv defStep (fun a b ha => defStep_inv ha) _ _ ⟨hni, hnd, hmi, hmd⟩
      | exact ⟨hni, hnd, hmi, hmd⟩

theorem procLine_inv {st : ParseState} {l : List Char} (h : ParseInv st) :
    ParseInv (procLine st l) := by
  unfold procLine
  dsimp only
  split_ifs
  · exact h
  · exact h
  · split
    · exact h
    · exact dispatchKey_inv h

/-! ## Claims -/

/-- Sufficient condition under which one `apply_patch` edit is idempotent on
content: nothing for `Replace`; for `Append` the insert must carry the
marker and the content must be nonempty and free of carriage returns; for
`RegexReplace` the pattern must compile and the replaced output must either
still match while containing the insert, or be a fixed point of the
replacement. -/
def IdemHyp (eng : RegexEngine) : Patch → List Char → Prop
  | .replace _ _ _, _ => True
  | .append _ _ ins marker, c =>
      containsSub ins marker = true ∧ '\r' ∉ c ∧ c ≠ []
  | .regexReplace _ pat ins, c =>
      ∃ re, eng pat = some re ∧
        ((re.isMatch (rrOut re c ins) && containsSub (rrOut re c ins) ins) = true
          ∨ re.replaceAll (rrOut re c ins) ins = rrOut re c ins)

/-- C1, counterexample: the `Append` spec `{after := "a", insert := "b",
marker := "z"}` on content `"a"` is not idempotent — the first run yields
`"a\nb\n"`, the second `"a\nb\nb\n"`, because the marker `"z"` never
appears in the patched file. -/
theorem c1_counterexample :
    applyContentT noRegex (Patch.append ("f".data) ("a".data) ("b".data) ("z".data))
        (applyContentT noRegex (Patch.append ("f".data) ("a".data) ("b".data) ("z".data))
          ("a".data))
      ≠ applyContentT noRegex (Patch.append ("f".data) ("a".data) ("b".data) ("z".data))
          ("a".data) := by
  decide

/-- C1, amended: applying a patch twice yields the same content as applying
it once for every `Replace` spec; for an `Append` spec whenever the insert
contains the marker and the content is nonempty and carriage-return free;
and for a `RegexReplace` spec whenever the pattern compiles and the
replaced output still matches and contains the insert or is a fixed point
of the replacement. -/
theorem c1_amended (eng : RegexEngine) (p : Patch) (c : List Char)
    (h : IdemHyp eng p c) :
    applyContentT eng p (applyContentT eng p c) = applyContentT eng p c := by
  cases p with
  | replace f find ins => exact replaceIdem eng f find ins c
  | append f after ins marker =>
    obtain ⟨h1, h2, h3⟩ := h
    exact appendIdem eng f after ins marker c h1 h2 h3
  | regexReplace f pat ins =>
    obtain ⟨re, hre, hyp⟩ := h
    exact rrIdem eng f pat ins c hre hyp

/-- C1, witness: the amended idempotence at the `Append` spec
`{after := "add", insert := "X", marker := "X"}` on content
`"add_executable(x)"`. -/
theorem c1_amended_witness :
    IdemHyp litEng (Patch.append ("f".data) ("add".data) ("X".data) ("X".data))
        ("add_executable(x)".data)
    ∧ applyContentT litEng (Patch.append ("f".data) ("add".data) ("X".data) ("X".data))
        (applyContentT litEng (Patch.append ("f".data) ("add".data) ("X".data) ("X".data))
          ("add_executable(x)".data))
      = applyContentT litEng (Patch.append ("f".data) ("add".data) ("X".data) ("X".data))
          ("add_executable(x)".data) :=
  ⟨⟨by decide, by decide, by decide⟩,
    c1_amended litEng _ _ ⟨by decide, by decide, by decide⟩⟩

/-- C2, counterexample: an `Append` spec whose `after` matches no line and
whose marker is absent recomputes content equal to the old content
(`"a\n"`), yet `apply_patch` still performs the write — the engine never
compares new with old. -/
theorem c2_counterexample :
    apply_patch noRegex (Patch.append ("f".data) ("q".data) ("x".data) ("m".data))
        (ReadResult.ok ("a\n".data))
      = PatchOutcome.ok_written ("f".data) ("a\n".data) := by
  decide

/-- C2, amended: the engine writes after every non-skipped edit with no
old-versus-new comparison; in particular an `Append` spec whose marker is
absent and whose `after` matches no line writes back content identical to
the old content whenever that content is already newline-normalised. -/
theorem c2_amended (eng : RegexEngine) (f after ins marker c : List Char)
    (h1 : containsSub c marker = false)
    (h2 : ((rustLines c).all fun l => !containsSub l after) = true)
    (h3 : joinSep ['\n'] (rustLines c) ++ ['\n'] = c) :
    apply_patch eng (Patch.append f after ins marker) (ReadResult.ok c)
      = PatchOutcome.ok_written f c := by
  have h2' : ∀ l ∈ rustLines c, containsSub l after = false := by
    intro l hl
    have := List.all_eq_true.mp h2 l hl
    simpa using this
  have hout : appendOut after ins c = c := by
    rw [appendOut, map_appGo_id h2', h3]
  simp [apply_patch, editContent, Patch.getFile, h1, hout]

/-- C2, witness: the amended statement at the spec of the counterexample —
the engine writes `"a\n"` over an identical `"a\n"`. -/
theorem c2_amended_witness :
    containsSub ("a\n".data) ("m".data) = false
    ∧ ((rustLines ("a\n".data)).all fun l => !containsSub l ("q".data)) = true
    ∧ joinSep ['\n'] (rustLines ("a\n".data)) ++ ['\n'] = "a\n".data
    ∧ apply_patch noRegex (Patch.append ("f".data) ("q".data) ("x".data) ("m".data))
        (ReadResult.ok ("a\n".data))
      = PatchOutcome.ok_written ("f".data) ("a\n".data) :=
  ⟨by decide, by decide, by decide,
    c2_amended noRegex _ _ _ _ _ (by decide) (by decide) (by decide)⟩

/-- C3, counterexample: unfolding `["A \", "B \", "C"]` does not give
`["A B C"]` — the whitespace before each stripped backslash is kept and a
further space is appended. -/
theorem c3_counterexample :
    unfold_multiline ["A \\".data, "B \\".data, "C".data] ≠ ["A B C".data] := by
  decide

/-- C3, amended: unfolding `["A \", "B \", "C"]` yields `["A  B  C"]` —
only the backslash is stripped, the space that preceded it survives,
and one further space is appended, so the fragments are joined by two
spaces each. -/
theorem c3_amended :
    unfold_multiline ["A \\".data, "B \\".data, "C".data] = ["A  B  C".data] := by
  decide

/-- C4: the `Err(_)` arm of the read in `apply_patch` silently skips on
every read error — permission denied and undecodable content included —
instead of propagating it, contradicting the claim (the code comment
documents the arm as the file-not-found case only). -/
theorem c4_read_error_skipped (eng : RegexEngine) (p : Patch) (e : ReadError) :
    apply_patch eng p (ReadResult.err e) = PatchOutcome.ok_skipped := rfl

/-- C5: a patch whose target file does not exist is skipped with a
successful result and no write, in every patch mode. -/
theorem c5_missing_file_skipped (eng : RegexEngine) (p : Patch) :
    apply_patch eng p (ReadResult.err ReadError.notFound) = PatchOutcome.ok_skipped := rfl

/-- C6, counterexample: a `RegexReplace` spec whose pattern `"("` does not
compile is nevertheless silently skipped when its target file is missing,
because the read is matched before the pattern is ever compiled. -/
theorem c6_counterexample :
    apply_patch demoEng (Patch.regexReplace ("f".data) ("(".data) ("x".data))
        (ReadResult.err ReadError.notFound) = PatchOutcome.ok_skipped := rfl

/-- C6, amended: when the target file's content is read successfully, a
`RegexReplace` spec whose pattern fails to compile panics — the run
aborts, nothing is skipped and no write is performed. -/
theorem c6_amended (eng : RegexEngine) (f pat ins c : List Char)
    (h : eng pat = none) :
    apply_patch eng (Patch.regexReplace f pat ins) (ReadResult.ok c)
      = PatchOutcome.panicked := by
  simp [apply_patch, editContent, h]

/-- C6, witness: the amended statement at the invalid pattern `"("` of
`demoEng` on content `"abc"`. -/
theorem c6_amended_witness :
    demoEng ("(".data) = none
    ∧ apply_patch demoEng (Patch.regexReplace ("f".data) ("(".data) ("x".data))
        (ReadResult.ok ("abc".data)) = PatchOutcome.panicked :=
  ⟨rfl, c6_amended demoEng _ _ _ _ rfl⟩

/-- C7, counterexample: the `Append` spec `{after := "a", insert := "",
marker := "m"}` on content `"a"` writes `"a\n\n"`, which ends with two
trailing newlines, not exactly one. -/
theorem c7_counterexample :
    apply_patch noRegex (Patch.append ("f".data) ("a".data) [] ("m".data))
        (ReadResult.ok ("a".data))
      = PatchOutcome.ok_written ("f".data) ("a\n\n".data)
    ∧ ("a\n\n".data).getLast? = some '\n'
    ∧ (("a\n\n".data).dropLast).getLast? = some '\n' := by
  decide

/-- C7, amended: for an `Append` spec on a nonempty, carriage-return-free
content with a newline-free, carriage-return-free insert: if the marker
occurs the edit is skipped; otherwise the written output's logical lines
are the input's lines with the insert placed directly below every line
containing `after`, the output ends in a newline, and it ends in exactly
one newline whenever the final emitted line is nonempty. -/
theorem c7_amended (eng : RegexEngine) (f after ins marker c : List Char)
    (hcr : '\r' ∉ c) (hc : c ≠ []) (hinl : '\n' ∉ ins) (hicr : '\r' ∉ ins) :
    (containsSub c marker = true →
        apply_patch eng (Patch.append f after ins marker) (ReadResult.ok c)
          = PatchOutcome.ok_skipped)
    ∧ (containsSub c marker = false →
        apply_patch eng (Patch.append f after ins marker) (ReadResult.ok c)
          = PatchOutcome.ok_written f (appendOut after ins c)
        ∧ rustLines (appendOut after ins c)
          = flatMapL (fun l => if containsSub l after then [l, ins] else [l]) (rustLines c)
        ∧ ∃ r, appendOut after ins c = r ++ ['\n']
            ∧ ((flatMapL (fun l => if containsSub l after then [l, ins] else [l])
                  (rustLines c)).getLast? ≠ some []
                → r.getLast? ≠ some '\n')) := by
  constructor
  · intro hmk
    simp [apply_patch, editContent, hmk]
  · intro hmk
    have hMne : flatMapL (fun l => if containsSub l after then [l, ins] else [l])
        (rustLines c) ≠ [] := by
      cases hLc : rustLines c with
      | nil => exact absurd hLc (rustLines_ne_nil hc)
      | cons l L => exact flatMapL_cons_ne_nil after ins l L
    have hmem : ∀ m ∈ flatMapL (fun l => if containsSub l after then [l, ins] else [l])
        (rustLines c), m ∈ rustLines c ∨ m = ins := by
      intro m hm2
      obtain ⟨l, hl, hml⟩ := mem_flatMapL.mp hm2
      by_cases hca : containsSub l after = true
      · rw [if_pos hca] at hml
        simp only [List.mem_cons, List.not_mem_nil, or_false] at hml
        rcases hml with h | h
        · exact Or.inl (h ▸ hl)
        · exact Or.inr h
      · rw [if_neg hca] at hml
        exact Or.inl ((List.mem_singleton.mp hml) ▸ hl)
    have hMnl : ∀ m ∈ flatMapL (fun l => if containsSub l after then [l, ins] else [l])
        (rustLines c), '\n' ∉ m := by
      intro m hm2
      rcases hmem m hm2 with h | h
      · exact rustLines_no_nl h
      · exact h ▸ hinl
    have hMcr : ∀ m ∈ flatMapL (fun l => if containsSub l after then [l, ins] else [l])
        (rustLines c), '\r' ∉ m := by
      intro m hm2
      rcases hmem m hm2 with h | h
      · exact rustLines_no_cr hcr h
      · exact h ▸ hicr
    have houtM : appendOut after ins c
        = joinSep ['\n'] (flatMapL (fun l => if containsSub l after then [l, ins] else [l])
            (rustLines c)) ++ ['\n'] := by
      rw [appendOut, joinSep_map_appGo]
    refine ⟨by simp [apply_patch, editContent, Patch.getFile, hmk], ?_, ?_⟩
    · rw [houtM]
      exact rustLines_join hMne hMnl hMcr
    · refine ⟨joinSep ['\n'] (flatMapL (fun l => if containsSub l after then [l, ins] else [l])
          (rustLines c)), houtM, ?_⟩
      intro hlast hbad
      obtain ⟨m, hm2⟩ := getLast?_of_ne_nil hMne
      have hmne : m ≠ [] := fun h => hlast (h ▸ hm2)
      obtain ⟨r', hr'⟩ := joinSep_ends ['\n'] hm2
      rw [hr', List.getLast?_append_of_ne_nil r' hmne] at hbad
      exact (hMnl m (memOfGetLast hm2)) (memOfGetLast hbad)

/-- C7, witness: the amended statement at the `Append` spec
`{after := "a", insert := "X", marker := "m"}` on content `"a\nb"`. -/
theorem c7_amended_witness :
    '\r' ∉ "a\nb".data ∧ "a\nb".data ≠ [] ∧ '\n' ∉ "X".data ∧ '\r' ∉ "X".data
    ∧ ((containsSub ("a\nb".data) ("m".data) = true →
          apply_patch noRegex (Patch.append ("f".data) ("a".data) ("X".data) ("m".data))
            (ReadResult.ok ("a\nb".data))
            = PatchOutcome.ok_skipped)
      ∧ (containsSub ("a\nb".data) ("m".data) = false →
          apply_patch noRegex (Patch.append ("f".data) ("a".data) ("X".data) ("m".data))
            (ReadResult.ok ("a\nb".data))
            = PatchOutcome.ok_written ("f".data) (appendOut ("a".data) ("X".data) ("a\nb".data))
          ∧ rustLines (appendOut ("a".data) ("X".data) ("a\nb".data))
            = flatMapL (fun l => if containsSub l ("a".data) then [l, "X".data] else [l])
                (rustLines ("a\nb".data))
          ∧ ∃ r, appendOut ("a".data) ("X".data) ("a\nb".data) = r ++ ['\n']
              ∧ ((flatMapL (fun l => if containsSub l ("a".data) then [l, "X".data] else [l])
                    (rustLines ("a\nb".data))).getLast? ≠ some []
                  → r.getLast? ≠ some '\n'))) :=
  ⟨by decide, by decide, by decide, by decide,
    c7_amended noRegex ("f".data) ("a".data) ("X".data) ("m".data) ("a\nb".data)
      (by decide) (by decide) (by decide) (by decide)⟩

/-- C8: for a `RegexReplace` spec whose pattern compiles, the edit on read
content is skipped exactly when the pattern matches the content and the
content already contains the insert literally; otherwise the global
replace-all result is written. -/
theorem c8_regex_skip_iff (eng : RegexEngine) (f pat ins c : List Char)
    (re : CompiledRegex) (hre : eng pat = some re) :
    (apply_patch eng (Patch.regexReplace f pat ins) (ReadResult.ok c)
        = PatchOutcome.ok_skipped
      ↔ (re.isMatch c && containsSub c ins) = true)
    ∧ ((re.isMatch c && containsSub c ins) = false →
        apply_patch eng (Patch.regexReplace f pat ins) (ReadResult.ok c)
          = PatchOutcome.ok_written f (re.replaceAll c ins)) := by
  constructor
  · constructor
    · intro h
      by_cases hcond : (re.isMatch c && containsSub c ins) = true
      · exact hcond
      · have hcond' : (re.isMatch c && containsSub c ins) = false := by
          cases hce : (re.isMatch c && containsSub c ins) with
          | false => rfl
          | true => exact absurd hce hcond
        simp [apply_patch, editContent, hre, hcond'] at h
    · intro hcond
      simp [apply_patch, editContent, hre, hcond]
  · intro hcond
    simp [apply_patch, editContent, Patch.getFile, hre, hcond]

/-- C8, witness: the skip-iff characterisation at the literal engine with
pattern `"a"`, insert `"b"`, content `"a"` (pattern matches, insert absent,
so the replacement is written). -/
theorem c8_regex_skip_iff_witness :
    litEng ("a".data) = some (litCompile ("a".data))
    ∧ ((apply_patch litEng (Patch.regexReplace ("f".data) ("a".data) ("b".data))
          (ReadResult.ok ("a".data))
          = PatchOutcome.ok_skipped
        ↔ ((litCompile ("a".data)).isMatch ("a".data)
            && containsSub ("a".data) ("b".data)) = true)
      ∧ (((litCompile ("a".data)).isMatch ("a".data)
            && containsSub ("a".data) ("b".data)) = false →
          apply_patch litEng (Patch.regexReplace ("f".data) ("a".data) ("b".data))
            (ReadResult.ok ("a".data))
            = PatchOutcome.ok_written ("f".data)
                ((litCompile ("a".data)).replaceAll ("a".data) ("b".data)))) :=
  ⟨rfl, c8_regex_skip_iff litEng ("f".data) ("a".data) ("b".data) ("a".data)
    (litCompile ("a".data)) rfl⟩

/-- C9: for every input text the extracted `includes` and `defines`
sequences contain no repeated entry, and the dedup keeps the first
occurrence in first-seen order: `C_INCLUDES = -Ifoo -Ibar -Ifoo` yields
`["foo", "bar"]` and `C_DEFS = -DA -DB -DA` yields `["A", "B"]`. -/
theorem c9_includes_defines_nodup :
    (∀ c : List Char,
        (parse_makefile c).includes.Nodup ∧ (parse_makefile c).defines.Nodup)
    ∧ (parse_makefile ("C_INCLUDES = -Ifoo -Ibar -Ifoo".data)).includes
        = ["foo".data, "bar".data]
    ∧ (parse_makefile ("C_DEFS = -DA -DB -DA".data)).defines
        = ["A".data, "B".data] := by
  refine ⟨fun c => ?_, by decide, by decide⟩
  have hinit : ParseInv initState :=
    ⟨by simp [initState], by simp [initState], by simp [initState], by simp [initState]⟩
  have h := foldl_inv ParseInv procLine (fun a b ha => procLine_inv ha)
      (unfold_multiline (rustLines c)) initState hinit
  exact ⟨h.1, h.2.1⟩

/-- C10: a bare `-I` token inserts the empty path into `includes` (first
occurrence), for `C_INCLUDES` and `AS_INCLUDES` alike, whereas a bare `-D`
token is discarded from `defines` because empty names are filtered. -/
theorem c10_empty_include_path_kept :
    (parse_makefile ("C_INCLUDES = -I".data)).includes = [[]]
    ∧ (parse_makefile ("AS_INCLUDES = -I".data)).includes = [[]]
    ∧ (parse_makefile ("C_DEFS = -D".data)).defines = [] := by
  decide

end StmTool
